import Mathlib

set_option maxHeartbeats 1000000

/-!
Shallow embedding of the datastore identity, namespace, ordering, and
garbage-collection status model of `pbs-api-types/src/datastore.rs`.

Rust `String` values are embedded as `List Char`; `Result<T, Error>` as
`Except String T`; `usize`/`u64` counters as `Nat` (no arithmetic in the
embedded code can overflow 64 bits on the reachable inputs); `i64` epochs
as `Int`.
-/

/-- Modelled from the spec: first character of a safe-id component
(`PROXMOX_SAFE_ID_REGEX`, whose definition lives outside this tree):
ASCII alphanumeric or underscore. -/
def safeIdFirst (c : Char) : Bool := c.isAlphanum || c == '_'

/-- Modelled from the spec: continuation character of a safe-id component:
ASCII alphanumeric, dot, underscore or hyphen. -/
def safeIdRest (c : Char) : Bool := c.isAlphanum || c == '.' || c == '_' || c == '-'

/-- Modelled from the spec: the safe-id grammar used for namespace components:
non-empty, no slash, limited charset. -/
def safeIdMatch : List Char → Bool
  | [] => false
  | c :: cs => safeIdFirst c && cs.all safeIdRest

/-- `MAX_NAMESPACE_DEPTH` from `datastore.rs` (documented there as
"the maximal, inclusive depth", root = depth 0). -/
def MAX_NAMESPACE_DEPTH : Nat := 7

/-- `MAX_BACKUP_NAMESPACE_LENGTH` from `datastore.rs` (`32 * 8`). -/
def MAX_BACKUP_NAMESPACE_LENGTH : Nat := 32 * 8

/-- `BackupNamespace`: the namespace components plus the cached name length. -/
structure BackupNamespace where
  inner : List (List Char)
  len : Nat
deriving DecidableEq

/-- `BackupNamespace::root`. -/
def BackupNamespace.root : BackupNamespace := { inner := [], len := 0 }

/-- `BackupNamespace::is_root`. -/
def BackupNamespace.is_root (ns : BackupNamespace) : Bool := ns.inner.isEmpty

/-- `BackupNamespace::depth`. -/
def BackupNamespace.depth (ns : BackupNamespace) : Nat := ns.inner.length

/-- `BackupNamespace::name_len`: the cached length field. -/
def BackupNamespace.name_len (ns : BackupNamespace) : Nat := ns.len

/-- `BackupNamespace::push_do`: depth check, length check, charset check,
then append the component and update the cached length. -/
def BackupNamespace.push_do (ns : BackupNamespace) (subdir : List Char) :
    Except String BackupNamespace :=
  if ns.depth > MAX_NAMESPACE_DEPTH then
    Except.error ("namespace to deep")
  else if ns.len + subdir.length + 1 > MAX_BACKUP_NAMESPACE_LENGTH then
    Except.error ("namespace length exceeded")
  else if safeIdMatch subdir = false then
    Except.error ("not a valid namespace component")
  else
    Except.ok
      { inner := ns.inner ++ [subdir],
        len := (if ns.inner.isEmpty then ns.len else ns.len + 1) + subdir.length }

/-- `BackupNamespace::push`: rejects components containing a slash, then `push_do`. -/
def BackupNamespace.push (ns : BackupNamespace) (subdir : List Char) :
    Except String BackupNamespace :=
  if subdir.contains '/' then
    Except.error ("namespace component contained a slash")
  else
    BackupNamespace.push_do ns subdir

/-- Push a list of components in order (the loop bodies of `new`, `from_path`
and `map_prefix` all reduce to repeated `push`). -/
def pushAll (ns : BackupNamespace) : List (List Char) → Except String BackupNamespace
  | [] => Except.ok ns
  | c :: cs =>
    match BackupNamespace.push ns c with
    | Except.error e => Except.error e
    | Except.ok ns1 => pushAll ns1 cs

/-- Rust `str::split(sep)`: splitting the empty string yields one empty piece,
adjacent separators yield empty pieces. -/
def splitChar (sep : Char) : List Char → List (List Char)
  | [] => [[]]
  | c :: cs =>
    if c = sep then [] :: splitChar sep cs
    else
      match splitChar sep cs with
      | [] => [[c]]
      | r :: rs => (c :: r) :: rs

/-- `BackupNamespace::new`: empty string is the root, otherwise split on `/`
and push every piece. -/
def BackupNamespace.new (name : List Char) : Except String BackupNamespace :=
  if name.isEmpty then Except.ok BackupNamespace.root
  else pushAll BackupNamespace.root (splitChar '/' name)

/-- Rust `str::strip_prefix("ns/")` as used by `from_path`. -/
def stripNsPrefix : List Char → Option (List Char)
  | c1 :: c2 :: c3 :: rest =>
    if c1 = 'n' ∧ c2 = 's' ∧ c3 = '/' then some rest else none
  | _ => none

/-- Rust `str::find(sep)` combined with the slicing done in `from_path`:
returns the part before the first separator and the part after it. -/
def splitFirst (sep : Char) : List Char → Option (List Char × List Char)
  | [] => none
  | c :: cs =>
    if c = sep then some ([], cs)
    else
      match splitFirst sep cs with
      | some (a, b) => some (c :: a, b)
      | none => none

/-- The loop of `BackupNamespace::from_path`. The `fuel` argument only makes the
recursion structural; every iteration consumes at least three characters of
`path`, so `fuel = path.length` (as passed by `from_path`) never runs out, and
the fuel-exhaustion branch repeats the loop-exit test of the source. -/
def fromPathLoop : Nat → BackupNamespace → List Char → Except String BackupNamespace
  | 0, ns, path =>
    if path.isEmpty then Except.ok ns
    else Except.error ("invalid component in namespace path")
  | fuel + 1, ns, path =>
    match stripNsPrefix path with
    | some next =>
      match splitFirst '/' next with
      | some (comp, rest) =>
        match BackupNamespace.push ns comp with
        | Except.error e => Except.error e
        | Except.ok ns1 => fromPathLoop fuel ns1 rest
      | none => BackupNamespace.push ns next
    | none =>
      if path.isEmpty then Except.ok ns
      else Except.error ("invalid component in namespace path")

/-- `BackupNamespace::from_path`. -/
def BackupNamespace.from_path (path : List Char) : Except String BackupNamespace :=
  fromPathLoop path.length BackupNamespace.root path

/-- `BackupNamespace::from_parent_ns`. -/
def BackupNamespace.from_parent_ns (parent : BackupNamespace) (name : List Char) :
    Except String BackupNamespace :=
  BackupNamespace.push parent name

/-- Rust `Vec::pop` on the component list: returns the removed last element and
the remaining list. -/
def popInner : List (List Char) → Option (List Char) × List (List Char)
  | [] => (none, [])
  | [x] => (some x, [])
  | x :: y :: ys =>
    match popInner (y :: ys) with
    | (d, rest) => (d, x :: rest)

/-- `BackupNamespace::pop`: drop the last component and shrink the cached
length by the component length plus one, saturating at zero. -/
def BackupNamespace.pop (ns : BackupNamespace) : Option (List Char) × BackupNamespace :=
  match popInner ns.inner with
  | (none, _) => (none, ns)
  | (some dropped, rest) =>
    (some dropped, { inner := rest, len := ns.len - (dropped.length + 1) })

/-- `BackupNamespace::parent`: the root's parent is the root, otherwise a clone
after `pop`. -/
def BackupNamespace.parent (ns : BackupNamespace) : BackupNamespace :=
  if ns.is_root then BackupNamespace.root
  else ( BackupNamespace.pop ns).2

/-- The `Display` impl for `BackupNamespace` (`to_string`): components joined
by single slashes. -/
def displayInner : List (List Char) → List Char
  | [] => []
  | first :: rest => first ++ (rest.map (fun p => '/' :: p)).flatten

/-- `BackupNamespace` `to_string`. -/
def BackupNamespace.display (ns : BackupNamespace) : List Char := displayInner ns.inner

/-- The `Display` impl for `BackupNamespacePath`: an `ns/` prefix in front of
every component (`ns/a/ns/b/...`). -/
def pathOfComps : List (List Char) → List Char
  | [] => []
  | first :: rest =>
    ('n' :: 's' :: '/' :: first) ++ (rest.map (fun p => '/' :: 'n' :: 's' :: '/' :: p)).flatten

/-- `BackupNamespace::display_as_path` rendered `to_string`. -/
def BackupNamespace.display_as_path (ns : BackupNamespace) : List Char :=
  pathOfComps ns.inner

/-- Rust slice `strip_prefix`: `stripPrefixList p l = some s` iff `l = p ++ s`. -/
def stripPrefixList : List (List Char) → List (List Char) → Option (List (List Char))
  | [], l => some l
  | _ :: _, [] => none
  | p :: ps, x :: xs => if p = x then stripPrefixList ps xs else none

/-- `BackupNamespace::map_prefix`: strip `source.inner` off the front of
`ns.inner`, then push the remaining suffix onto a clone of `target`. -/
def BackupNamespace.map_prefix (ns source target : BackupNamespace) :
    Except String BackupNamespace :=
  match stripPrefixList source.inner ns.inner with
  | none => Except.error ("Failed to map namespace - not a valid prefix")
  | some suffix => pushAll target suffix

/-- A namespace value reachable by pushing its own components onto the root:
exactly the values produced by the public constructors. -/
def ValidNS (ns : BackupNamespace) : Prop :=
  pushAll BackupNamespace.root ns.inner = Except.ok ns

deriving instance DecidableEq for Except

instance (ns : BackupNamespace) : Decidable (ValidNS ns) := by
  unfold ValidNS
  exact inferInstance

/-- `BackupType` from `datastore.rs`. -/
inductive BackupType
  | vm
  | ct
  | host
deriving DecidableEq

/-- `BackupType::as_str`. -/
def BackupType.as_str : BackupType → List Char
  | BackupType.vm => ['v', 'm']
  | BackupType.ct => ['c', 't']
  | BackupType.host => ['h', 'o', 's', 't']

/-- `BackupType::order`: the deliberate legacy ordering (formerly alphabetical
on the string form): Ct then Host then Vm. -/
def BackupType.order : BackupType → Nat
  | BackupType.ct => 0
  | BackupType.host => 1
  | BackupType.vm => 2

/-- `BackupType::from_str`. -/
def BackupType.from_str (ty : List Char) : Except String BackupType :=
  if ty = ('c' :: 't' :: []) then Except.ok BackupType.ct
  else if ty = ('h' :: 'o' :: 's' :: 't' :: []) then Except.ok BackupType.host
  else if ty = ('v' :: 'm' :: []) then Except.ok BackupType.vm
  else Except.error ("invalid backup type")

/-- Rust `Ord::cmp` on integers. -/
def natCompare (a b : Nat) : Ordering :=
  if a < b then Ordering.lt
  else if b < a then Ordering.gt
  else Ordering.eq

/-- The `Ord` impl for `BackupType`: compare the `order` ranks. -/
def BackupType.cmp (a b : BackupType) : Ordering :=
  natCompare a.order b.order

/-- Rust `Ord::cmp` on strings: byte-lexicographic, which over the UTF-8
encoding agrees with code-point-lexicographic order. -/
def lexCompare : List Char → List Char → Ordering
  | [], [] => Ordering.eq
  | [], _ :: _ => Ordering.lt
  | _ :: _, [] => Ordering.gt
  | a :: as_, b :: bs =>
    match natCompare a.toNat b.toNat with
    | Ordering.eq => lexCompare as_ bs
    | Ordering.lt => Ordering.lt
    | Ordering.gt => Ordering.gt

/-- Rust `str::parse::<u64>` on ASCII-digit strings: an optional leading `+`,
then one or more digits; fails on anything else and on values above
`u64::MAX`. -/
def parseDigitsU64 (s : List Char) : Option Nat :=
  if s.isEmpty then none
  else if s.all Char.isDigit then
    let v := s.foldl (fun acc c => acc * 10 + (c.toNat - 48)) 0
    if v < 18446744073709551616 then some v else none
  else none

/-- Rust `str::parse::<u64>` (see `parseDigitsU64` for the digit part). -/
def parseU64 : List Char → Option Nat
  | [] => none
  | '+' :: rest => parseDigitsU64 rest
  | s => parseDigitsU64 s

/-- The id comparison of the `Ord` impl for `BackupGroup`: numeric when both
ids parse as `u64`, a parsing id sorts before a non-parsing one, otherwise
lexicographic. -/
def idCmp (a b : List Char) : Ordering :=
  match parseU64 a, parseU64 b with
  | some x, some y => natCompare x y
  | some _, none => Ordering.lt
  | none, some _ => Ordering.gt
  | none, none => lexCompare a b

/-- `BackupGroup` from `datastore.rs`. -/
structure BackupGroup where
  ty : BackupType
  id : List Char
deriving DecidableEq

/-- The `Ord` impl for `BackupGroup`: backup type first, then the id rule of
`idCmp`. -/
def BackupGroup.cmp (a b : BackupGroup) : Ordering :=
  let type_order := BackupType.cmp a.ty b.ty
  if type_order ≠ Ordering.eq then type_order
  else idCmp a.id b.id

/-- The ordering described by the spec, written from its words: compare by
backup type with CT before Host before VM; if both ids parse as unsigned
64-bit integers compare them numerically; if exactly one parses it is the
smaller; otherwise compare the ids lexicographically. -/
def specGroupCmp (a b : BackupGroup) : Ordering :=
  if a.ty.order < b.ty.order then Ordering.lt
  else if b.ty.order < a.ty.order then Ordering.gt
  else
    match parseU64 a.id, parseU64 b.id with
    | some x, some y => natCompare x y
    | some _, none => Ordering.lt
    | none, some _ => Ordering.gt
    | none, none => lexCompare a.id b.id

/-- Equivalence of group ids under the code's comparison: equal numeric
values when both parse, identical strings when neither parses. -/
def idEquiv (a b : List Char) : Prop :=
  match parseU64 a, parseU64 b with
  | some x, some y => x = y
  | none, none => a = b
  | _, _ => False

/-- Gregorian leap-year rule. -/
def isLeap (y : Nat) : Bool := y % 4 == 0 && (y % 100 != 0 || y % 400 == 0)

/-- Days in a Gregorian year. -/
def daysInYear (y : Nat) : Nat := if isLeap y then 366 else 365

/-- Month lengths of a Gregorian year. -/
def monthLengths (leap : Bool) : List Nat :=
  [31, if leap then 29 else 28, 31, 30, 31, 30, 31, 31, 30, 31, 30, 31]

/-- Locate a day inside a list of month lengths: returns the zero-based month
index and the zero-based day inside that month. -/
def splitMonths : List Nat → Nat → Nat × Nat
  | [], d => (0, d)
  | ml :: rest, d =>
    if d < ml then (0, d)
    else
      match splitMonths rest (d - ml) with
      | (m, dd) => (m + 1, dd)

/-- Locate a day count (days since 1970-01-01) inside the calendar: returns
the year and the zero-based day of that year. The fuel argument only makes
the recursion structural; each step consumes at least 365 days, so
`fuel = days + 1` never runs out. -/
def yearFromDays : Nat → Nat → Nat → Nat × Nat
  | 0, y, days => (y, days)
  | fuel + 1, y, days =>
    if days < daysInYear y then (y, days)
    else yearFromDays fuel (y + 1) (days - daysInYear y)

/-- `sumYears y0 n`: total days of the `n` consecutive years starting at `y0`. -/
def sumYears (y0 : Nat) : Nat → Nat
  | 0 => 0
  | n + 1 => sumYears y0 n + daysInYear (y0 + n)

/-- The ASCII digit character for `n < 10`. -/
def digitChar (n : Nat) : Char := Char.ofNat (48 + n)

/-- Zero-padded two-digit decimal rendering. -/
def pad2 (n : Nat) : List Char := [digitChar (n / 10 % 10), digitChar (n % 10)]

/-- Zero-padded four-digit decimal rendering. -/
def pad4 (n : Nat) : List Char :=
  [digitChar (n / 1000 % 10), digitChar (n / 100 % 10), digitChar (n / 10 % 10),
    digitChar (n % 10)]

/-- Numeric value of an ASCII digit character. -/
def d2v (c : Char) : Nat := c.toNat - 48

/-- Modelled from the spec: `proxmox_time::epoch_to_rfc3339_utc` (outside this
tree), restricted to the epoch range of years 1970 through 9999: render an
epoch second count as `YYYY-MM-DDTHH:MM:SSZ` (RFC3339, UTC, second
precision). -/
def epochToRfc3339Utc (t : Int) : Option (List Char) :=
  if t < 0 then none
  else
    match yearFromDays (t.toNat / 86400 + 1) 1970 (t.toNat / 86400) with
    | (y, doy) =>
      if 9999 < y then none
      else
        match splitMonths (monthLengths (isLeap y)) doy with
        | (m, dd) =>
          some (pad4 y ++ '-' :: pad2 (m + 1) ++ '-' :: pad2 (dd + 1)
            ++ 'T' :: pad2 (t.toNat % 86400 / 3600) ++ ':' :: pad2 (t.toNat % 86400 % 3600 / 60)
            ++ ':' :: pad2 (t.toNat % 86400 % 60) ++ ['Z'])

/-- Modelled from the spec: `proxmox_time::parse_rfc3339` (outside this tree),
restricted to the `Z`-suffixed UTC form for years 1970 through 9999: parse
`YYYY-MM-DDTHH:MM:SSZ` back to epoch seconds, validating calendar ranges. -/
def parseRfc3339 (s : List Char) : Option Int :=
  match s with
  | y1 :: y2 :: y3 :: y4 :: c1 :: a1 :: a2 :: c2 :: b1 :: b2 :: cT :: h1 :: h2 ::
      c3 :: m1 :: m2 :: c4 :: s1 :: s2 :: cZ :: [] =>
    if c1 = '-' ∧ c2 = '-' ∧ cT = 'T' ∧ c3 = ':' ∧ c4 = ':' ∧ cZ = 'Z'
        ∧ (y1.isDigit ∧ y2.isDigit ∧ y3.isDigit ∧ y4.isDigit)
        ∧ (a1.isDigit ∧ a2.isDigit) ∧ (b1.isDigit ∧ b2.isDigit)
        ∧ (h1.isDigit ∧ h2.isDigit) ∧ (m1.isDigit ∧ m2.isDigit)
        ∧ (s1.isDigit ∧ s2.isDigit) then
      let y := 1000 * d2v y1 + 100 * d2v y2 + 10 * d2v y3 + d2v y4
      let mo := 10 * d2v a1 + d2v a2
      let da := 10 * d2v b1 + d2v b2
      let h := 10 * d2v h1 + d2v h2
      let mi := 10 * d2v m1 + d2v m2
      let sec := 10 * d2v s1 + d2v s2
      if 1970 ≤ y ∧ 1 ≤ mo ∧ 1 ≤ da ∧ h ≤ 23 ∧ mi ≤ 59 ∧ sec ≤ 59 then
        match (monthLengths (isLeap y))[mo - 1]? with
        | some ml =>
          if da ≤ ml then
            some (((sumYears 1970 (y - 1970)
              + ((monthLengths (isLeap y)).take (mo - 1)).sum + (da - 1)) * 86400
              + (h * 3600 + mi * 60 + sec) : Nat) : Int)
          else none
        | none => none
      else none
    else none
  | _ => none

/-- `BackupDir` from `datastore.rs`: a group plus the snapshot epoch. -/
structure BackupDir where
  group : BackupGroup
  time : Int
deriving DecidableEq

/-- The `Display` impl for `BackupGroup`: `type/id`. -/
def BackupGroup.display (g : BackupGroup) : List Char :=
  g.ty.as_str ++ '/' :: g.id

/-- The `Display` impl for `BackupDir`: `type/id/<rfc3339 timestamp>`; fails
(like the `fmt::Error` of the source) when the epoch does not render. -/
def BackupDir.display (d : BackupDir) : Option (List Char) :=
  match epochToRfc3339Utc d.time with
  | none => none
  | some ts => some ( BackupGroup.display d.group ++ '/' :: ts)

/-- Modelled from the spec: the `BACKUP_TIME_RE` shape used inside
`SNAPSHOT_PATH_REGEX` (the macro lives outside this tree):
`[0-9]{4}-[0-9]{2}-[0-9]{2}T[0-9]{2}:[0-9]{2}:[0-9]{2}Z`. -/
def timeReMatch : List Char → Bool
  | y1 :: y2 :: y3 :: y4 :: c1 :: a1 :: a2 :: c2 :: b1 :: b2 :: cT :: h1 :: h2 ::
      c3 :: m1 :: m2 :: c4 :: s1 :: s2 :: cZ :: [] =>
    (y1.isDigit && y2.isDigit && y3.isDigit && y4.isDigit
      && a1.isDigit && a2.isDigit && b1.isDigit && b2.isDigit
      && h1.isDigit && h2.isDigit && m1.isDigit && m2.isDigit
      && s1.isDigit && s2.isDigit)
    && (c1 == '-' && c2 == '-' && cT == 'T' && c3 == ':' && c4 == ':' && cZ == 'Z')
  | _ => false

/-- The `FromStr` impl for `BackupDir`: match `SNAPSHOT_PATH_REGEX`
(`^(type)/(id)/(time)$`, where type, id and time cannot contain a slash, so a
match is exactly a three-way split on `/` with each part matching its
sub-grammar), then parse the type and the RFC3339 timestamp. -/
def BackupDir.from_str (path : List Char) : Except String BackupDir :=
  match splitChar '/' path with
  | [tyS, idS, timeS] =>
    if (tyS == ('v' :: 'm' :: []) || tyS == ('c' :: 't' :: [])
          || tyS == ('h' :: 'o' :: 's' :: 't' :: []))
        && safeIdMatch idS && timeReMatch timeS then
      match BackupType.from_str tyS with
      | Except.error e => Except.error e
      | Except.ok ty =>
        match parseRfc3339 timeS with
        | some tm => Except.ok { group := { ty := ty, id := idS }, time := tm }
        | none => Except.error ("failed to parse rfc3339 timestamp")
    else Except.error ("unable to parse backup snapshot path")
  | _ => Except.error ("unable to parse backup snapshot path")

/-- `GarbageCollectionStatus` from `datastore.rs`. -/
structure GarbageCollectionStatus where
  upid : Option (List Char)
  index_file_count : Nat
  index_data_bytes : Nat
  disk_bytes : Nat
  disk_chunks : Nat
  removed_bytes : Nat
  removed_chunks : Nat
  pending_bytes : Nat
  pending_chunks : Nat
  removed_bad : Nat
  still_bad : Nat
deriving DecidableEq

/-- The `Default` impl for `GarbageCollectionStatus`: all counters zero. -/
def GarbageCollectionStatus.empty : GarbageCollectionStatus :=
  { upid := none, index_file_count := 0, index_data_bytes := 0, disk_bytes := 0,
    disk_chunks := 0, removed_bytes := 0, removed_chunks := 0, pending_bytes := 0,
    pending_chunks := 0, removed_bad := 0, still_bad := 0 }

/-- A chunk physically present in the chunk store, as the sweep phase sees it:
digest, size in bytes, last-access time, and whether a verify pass flagged it
bad. -/
structure SweepChunk where
  digest : Nat
  size : Nat
  atime : Int
  bad : Bool
deriving DecidableEq

/-- Modelled from the spec: one step of the GC sweep phase (the engine itself
lives outside this tree; only `GarbageCollectionStatus` is in
`datastore.rs`). Every chunk counts toward `disk_*`; a referenced chunk is
kept; an unreferenced chunk whose last-access time is at or after the cutoff
`t0` counts as pending and is kept; otherwise it is deleted and counts as
removed (bad chunks split into `removed_bad` / `still_bad`). The second
component accumulates the deleted chunks. -/
def sweepStep (t0 : Int) (referenced : Nat → Bool)
    (acc : GarbageCollectionStatus × List SweepChunk) (c : SweepChunk) :
    GarbageCollectionStatus × List SweepChunk :=
  let st0 := acc.1
  let st := { st0 with disk_bytes := st0.disk_bytes + c.size,
                       disk_chunks := st0.disk_chunks + 1 }
  if referenced c.digest then
    ({ st with still_bad := st.still_bad + (if c.bad then 1 else 0) }, acc.2)
  else if t0 ≤ c.atime then
    ({ st with pending_bytes := st.pending_bytes + c.size,
               pending_chunks := st.pending_chunks + 1,
               still_bad := st.still_bad + (if c.bad then 1 else 0) }, acc.2)
  else
    ({ st with removed_bytes := st.removed_bytes + c.size,
               removed_chunks := st.removed_chunks + 1,
               removed_bad := st.removed_bad + (if c.bad then 1 else 0) },
      acc.2 ++ [c])

/-- Modelled from the spec: the GC sweep phase over the whole chunk store,
starting from an empty status: returns the final status and the list of
deleted chunks. -/
def sweep (t0 : Int) (referenced : Nat → Bool) (chunks : List SweepChunk) :
    GarbageCollectionStatus × List SweepChunk :=
  chunks.foldl (sweepStep t0 referenced) (GarbageCollectionStatus.empty, [])

/-- The cached-length invariant: the `len` field equals the length of the
rendered name form. -/
def LenInv (ns : BackupNamespace) : Prop :=
  BackupNamespace.name_len ns = ( BackupNamespace.display ns).length

instance (ns : BackupNamespace) : Decidable (LenInv ns) := by
  unfold LenInv
  exact inferInstance

theorem splitChar_ne_nil (sep : Char) (s : List Char) : splitChar sep s ≠ [] := by
  cases s with
  | nil => simp [splitChar]
  | cons c cs =>
    simp only [splitChar]
    split
    · simp
    · split <;> simp

theorem displayInner_cons_cons (a b : List Char) (rs : List (List Char)) :
    displayInner (a :: b :: rs) = a ++ '/' :: displayInner (b :: rs) := by
  simp [displayInner]

theorem displayInner_splitChar (s : List Char) :
    displayInner (splitChar '/' s) = s := by
  induction s with
  | nil => rfl
  | cons c cs ih =>
    by_cases hc : c = '/'
    · subst hc
      have hstep : splitChar '/' ('/' :: cs) = [] :: splitChar '/' cs := by
        simp [splitChar]
      rw [hstep]
      rcases hr : splitChar '/' cs with _ | ⟨r, rs⟩
      · exact absurd hr (splitChar_ne_nil _ _)
      · rw [hr] at ih
        rw [displayInner_cons_cons]
        simp [ih]
    · have hstep : splitChar '/' (c :: cs)
          = match splitChar '/' cs with
            | [] => [[c]]
            | r :: rs => (c :: r) :: rs := by
        simp [splitChar, hc]
      rw [hstep]
      rcases hr : splitChar '/' cs with _ | ⟨r, rs⟩
      · exact absurd hr (splitChar_ne_nil _ _)
      · rw [hr] at ih
        rw [← ih]
        cases rs with
        | nil => simp [displayInner]
        | cons b bs => rw [displayInner_cons_cons, displayInner_cons_cons]; simp

theorem push_ok_spec {ns ns' : BackupNamespace} {c : List Char}
    (h : BackupNamespace.push ns c = Except.ok ns') :
    ns'.inner = ns.inner ++ [c]
    ∧ ns'.len = (if ns.inner.isEmpty then ns.len else ns.len + 1) + c.length
    ∧ safeIdMatch c = true
    ∧ c.contains '/' = false
    ∧ ns.depth ≤ MAX_NAMESPACE_DEPTH
    ∧ ns.len + c.length + 1 ≤ MAX_BACKUP_NAMESPACE_LENGTH := by
  unfold BackupNamespace.push BackupNamespace.push_do at h
  split_ifs at h with h1 h2 h3 h4 h5 <;> cases h
  · exact ⟨rfl, by rw [if_pos h5], by simpa using h4, by simpa using h1, by omega, by omega⟩
  · exact ⟨rfl, by rw [if_neg h5], by simpa using h4, by simpa using h1, by omega, by omega⟩

theorem pushAll_ok_inner :
    ∀ (comps : List (List Char)) (ns0 ns : BackupNamespace),
      pushAll ns0 comps = Except.ok ns → ns.inner = ns0.inner ++ comps := by
  intro comps
  induction comps with
  | nil => intro ns0 ns h; cases h; simp
  | cons c cs ih =>
    intro ns0 ns h
    simp only [pushAll] at h
    rcases hp : BackupNamespace.push ns0 c with e | ns1
    · rw [hp] at h; cases h
    · rw [hp] at h
      have h1 := (push_ok_spec hp).1
      have h2 := ih ns1 ns h
      rw [h2, h1]
      simp

/-- C4: for every string accepted by `BackupNamespace::new`, re-serializing the
parsed namespace with `Display` yields the original string (the empty string
gives the root namespace, whose display is empty). -/
theorem namespace_name_roundtrip (s : List Char) (ns : BackupNamespace)
    (h : BackupNamespace.new s = Except.ok ns) :
    BackupNamespace.display ns = s := by
  unfold BackupNamespace.new at h
  by_cases hs : s.isEmpty
  · rw [if_pos hs] at h
    cases h
    rcases List.isEmpty_iff.mp hs
    rfl
  · rw [if_neg hs] at h
    have hinner := pushAll_ok_inner _ _ _ h
    unfold BackupNamespace.display
    rw [hinner]
    simpa [BackupNamespace.root] using displayInner_splitChar s

/-- Witness for C4 at the concrete input `a/b`. -/
theorem namespace_name_roundtrip_witness :
    BackupNamespace.new (("a/b").toList) = Except.ok { inner := [['a'], ['b']], len := 3 }
    ∧ BackupNamespace.display { inner := [['a'], ['b']], len := 3 } = ("a/b").toList :=
  ⟨by decide, namespace_name_roundtrip _ _ (by decide)⟩

/-- C1: the depth check of `push_do` compares the pre-push depth with
`MAX_NAMESPACE_DEPTH` using a strict inequality, so `new` accepts an
eight-component input, producing a namespace of depth 8 even though the
documented maximal inclusive depth is 7. -/
theorem new_accepts_depth_eight :
    BackupNamespace.new (("a/a/a/a/a/a/a/a").toList)
      = Except.ok { inner := List.replicate 8 ['a'], len := 15 }
    ∧ ({ inner := List.replicate 8 ['a'], len := 15 } : BackupNamespace).depth = 8
    ∧ MAX_NAMESPACE_DEPTH = 7 := by decide

theorem popInner_concat (xs : List (List Char)) (x : List Char) :
    popInner (xs ++ [x]) = (some x, xs) := by
  induction xs with
  | nil => rfl
  | cons y ys ih =>
    rcases e : ys ++ [x] with _ | ⟨z, zs⟩
    · cases ys <;> simp at e
    · show popInner (y :: (ys ++ [x])) = _
      rw [e]
      simp only [popInner]
      rw [← e, ih]

/-- C9: the root's parent is the root; `pop` on the root returns `None` and
leaves the namespace unchanged; on a non-root namespace, `parent` is a clone
after `pop` and drops exactly the last component. -/
theorem parent_pop_spec :
    ( BackupNamespace.parent BackupNamespace.root = BackupNamespace.root)
    ∧ (∀ ns : BackupNamespace, ns.is_root = true → BackupNamespace.pop ns = (none, ns))
    ∧ (∀ ns : BackupNamespace, ns.is_root = false →
        BackupNamespace.parent ns = ( BackupNamespace.pop ns).2
        ∧ ( BackupNamespace.parent ns).inner = ns.inner.dropLast) := by
  refine ⟨rfl, ?_, ?_⟩
  · intro ns h
    have hinner : ns.inner = [] := List.isEmpty_iff.mp h
    unfold BackupNamespace.pop
    rw [hinner]
    rfl
  · intro ns h
    have hne : ns.inner ≠ [] := by
      intro he
      rw [BackupNamespace.is_root, he] at h
      cases h
    rcases (List.eq_nil_or_concat ns.inner).resolve_left hne with ⟨xs, x, hx⟩
    have hparent : BackupNamespace.parent ns = ( BackupNamespace.pop ns).2 := by
      unfold BackupNamespace.parent
      rw [h]
      rfl
    refine ⟨hparent, ?_⟩
    rw [hparent]
    unfold BackupNamespace.pop
    rw [List.concat_eq_append] at hx
    rw [hx, popInner_concat]
    simp

/-- Witness for C9 at the concrete namespace `a/b`. -/
theorem parent_pop_spec_witness :
    BackupNamespace.parent { inner := [['a'], ['b']], len := 3 }
      = ( BackupNamespace.pop { inner := [['a'], ['b']], len := 3 }).2
    ∧ ( BackupNamespace.parent { inner := [['a'], ['b']], len := 3 }).inner
      = [['a'], ['b']].dropLast :=
  parent_pop_spec.2.2 _ (by decide)

theorem displayInner_length_concat (xs : List (List Char)) (c : List Char) :
    (displayInner (xs ++ [c])).length
      = (if xs.isEmpty then 0 else (displayInner xs).length + 1) + c.length := by
  induction xs with
  | nil => simp [displayInner]
  | cons x xs ih =>
    cases xs with
    | nil =>
      rw [List.cons_append, List.nil_append, displayInner_cons_cons]
      simp [displayInner]
      omega
    | cons z zs =>
      rw [List.cons_append, List.cons_append, displayInner_cons_cons, displayInner_cons_cons]
      rw [List.cons_append] at ih
      simp only [List.isEmpty_cons, Bool.false_eq_true, if_false, List.length_append,
        List.length_cons] at ih ⊢
      omega

theorem lenInv_root : LenInv BackupNamespace.root := rfl

theorem push_lenInv {ns ns' : BackupNamespace} {c : List Char}
    (hinv : LenInv ns) (h : BackupNamespace.push ns c = Except.ok ns') :
    LenInv ns' := by
  obtain ⟨hi, hl, -⟩ := push_ok_spec h
  unfold LenInv BackupNamespace.name_len BackupNamespace.display at hinv ⊢
  rw [hi, hl, displayInner_length_concat]
  by_cases he : ns.inner.isEmpty
  · rw [if_pos he, if_pos he]
    have : ns.inner = [] := List.isEmpty_iff.mp he
    rw [hinv, this]
    rfl
  · rw [if_neg he, if_neg he, hinv]

theorem pushAll_lenInv :
    ∀ (comps : List (List Char)) {ns ns' : BackupNamespace},
      LenInv ns → pushAll ns comps = Except.ok ns' → LenInv ns' := by
  intro comps
  induction comps with
  | nil => intro ns ns' hinv h; cases h; exact hinv
  | cons c cs ih =>
    intro ns ns' hinv h
    simp only [pushAll] at h
    rcases hp : BackupNamespace.push ns c with e | ns1
    · rw [hp] at h; cases h
    · rw [hp] at h
      exact ih (push_lenInv hinv hp) h

theorem pop_lenInv {ns : BackupNamespace} (hinv : LenInv ns) :
    LenInv ( BackupNamespace.pop ns).2 := by
  rcases List.eq_nil_or_concat ns.inner with he | ⟨xs, x, hx⟩
  · unfold BackupNamespace.pop
    rw [he]
    exact hinv
  · rw [List.concat_eq_append] at hx
    unfold BackupNamespace.pop
    rw [hx, popInner_concat]
    unfold LenInv BackupNamespace.name_len BackupNamespace.display at hinv ⊢
    rw [hx, displayInner_length_concat] at hinv
    simp only
    by_cases he : xs.isEmpty
    · rw [if_pos he] at hinv
      rcases List.isEmpty_iff.mp he
      simp only [displayInner, List.length_nil]
      omega
    · rw [if_neg he] at hinv
      omega

theorem parent_lenInv {ns : BackupNamespace} (hinv : LenInv ns) :
    LenInv ( BackupNamespace.parent ns) := by
  unfold BackupNamespace.parent
  by_cases h : ns.is_root
  · rw [if_pos h]; exact lenInv_root
  · rw [if_neg h]; exact pop_lenInv hinv

theorem fromPathLoop_lenInv :
    ∀ (fuel : Nat) {ns : BackupNamespace} (path : List Char) {ns' : BackupNamespace},
      LenInv ns → fromPathLoop fuel ns path = Except.ok ns' → LenInv ns' := by
  intro fuel
  induction fuel with
  | zero =>
    intro ns path ns' hinv h
    simp only [fromPathLoop] at h
    split_ifs at h
    cases h
    exact hinv
  | succ fuel ih =>
    intro ns path ns' hinv h
    simp only [fromPathLoop] at h
    rcases hs : stripNsPrefix path with _ | next
    · simp only [hs] at h
      split_ifs at h
      cases h
      exact hinv
    · simp only [hs] at h
      rcases hf : splitFirst '/' next with _ | ⟨comp, rest⟩
      · simp only [hf] at h
        exact push_lenInv hinv h
      · simp only [hf] at h
        rcases hp : BackupNamespace.push ns comp with e | ns1
        · simp only [hp] at h; cases h
        · simp only [hp] at h
          exact ih rest (push_lenInv hinv hp) h

/-- C10: every `BackupNamespace` built through the public constructors and
mutators (`root`, `new`, `from_path`, `from_parent_ns`, `push`, `pop`,
`parent`, `map_prefix`) keeps the cached `len` field equal to the length of
the `Display` rendering (`name_len() == to_string().len()`). -/
theorem name_len_invariant :
    LenInv BackupNamespace.root
    ∧ (∀ s ns, BackupNamespace.new s = Except.ok ns → LenInv ns)
    ∧ (∀ p ns, BackupNamespace.from_path p = Except.ok ns → LenInv ns)
    ∧ (∀ parent c ns, LenInv parent →
        BackupNamespace.from_parent_ns parent c = Except.ok ns → LenInv ns)
    ∧ (∀ ns c ns', LenInv ns → BackupNamespace.push ns c = Except.ok ns' → LenInv ns')
    ∧ (∀ ns : BackupNamespace, LenInv ns → LenInv ( BackupNamespace.pop ns).2)
    ∧ (∀ ns : BackupNamespace, LenInv ns → LenInv ( BackupNamespace.parent ns))
    ∧ (∀ ns source target ns', LenInv target →
        BackupNamespace.map_prefix ns source target = Except.ok ns' → LenInv ns') := by
  refine ⟨lenInv_root, ?_, ?_, ?_, ?_, ?_, ?_, ?_⟩
  · intro s ns h
    unfold BackupNamespace.new at h
    split_ifs at h
    · cases h; exact lenInv_root
    · exact pushAll_lenInv _ lenInv_root h
  · intro p ns h
    exact fromPathLoop_lenInv _ p lenInv_root h
  · intro parent c ns hinv h
    exact push_lenInv hinv h
  · intro ns c ns' hinv h
    exact push_lenInv hinv h
  · intro ns hinv
    exact pop_lenInv hinv
  · intro ns hinv
    exact parent_lenInv hinv
  · intro ns source target ns' hinv h
    unfold BackupNamespace.map_prefix at h
    rcases hs : stripPrefixList source.inner ns.inner with _ | suffix
    · rw [hs] at h; cases h
    · rw [hs] at h
      exact pushAll_lenInv _ hinv h

/-- Witness for C10: pushing `b` onto the namespace `a` preserves the cached
length. -/
theorem name_len_invariant_witness :
    BackupNamespace.push { inner := [['a']], len := 1 } ['b']
      = Except.ok { inner := [['a'], ['b']], len := 3 }
    ∧ LenInv { inner := [['a'], ['b']], len := 3 } :=
  ⟨by decide,
    name_len_invariant.2.2.2.2.1 { inner := [['a']], len := 1 } ['b'] _
      (by decide) (by decide)⟩

theorem stripPrefixList_some_iff :
    ∀ (p l s : List (List Char)), stripPrefixList p l = some s ↔ l = p ++ s := by
  intro p
  induction p with
  | nil => intro l s; simp [stripPrefixList]
  | cons x xs ih =>
    intro l s
    cases l with
    | nil => simp [stripPrefixList]
    | cons y ys =>
      simp only [stripPrefixList]
      by_cases hxy : x = y
      · rw [if_pos hxy, ih, hxy]
        simp
      · rw [if_neg hxy]
        simp
        intro hy
        exact absurd hy.symm hxy

/-- C8: if `source` is a component-wise prefix of `ns`, then `map_prefix`
replaces it: the call is exactly pushing the remaining suffix onto a clone of
`target`, and on success the result's components are `target`'s followed by
the suffix (the pushes enforce the depth/length limits); if `source` is not a
prefix, `map_prefix` returns an error. -/
theorem map_prefix_spec (ns source target : BackupNamespace) :
    (∀ suffix, ns.inner = source.inner ++ suffix →
        BackupNamespace.map_prefix ns source target = pushAll target suffix)
    ∧ (∀ suffix ns', ns.inner = source.inner ++ suffix →
        pushAll target suffix = Except.ok ns' →
        BackupNamespace.map_prefix ns source target = Except.ok ns'
        ∧ ns'.inner = target.inner ++ suffix)
    ∧ ((∀ suffix, ns.inner ≠ source.inner ++ suffix) →
        BackupNamespace.map_prefix ns source target
          = Except.error ("Failed to map namespace - not a valid prefix")) := by
  have hbase : ∀ suffix, ns.inner = source.inner ++ suffix →
      BackupNamespace.map_prefix ns source target = pushAll target suffix := by
    intro suffix hpre
    unfold BackupNamespace.map_prefix
    rw [(stripPrefixList_some_iff source.inner ns.inner suffix).mpr hpre]
  refine ⟨hbase, ?_, ?_⟩
  · intro suffix ns' hpre hpush
    refine ⟨(hbase suffix hpre).trans hpush, ?_⟩
    exact pushAll_ok_inner suffix target ns' hpush
  · intro hno
    unfold BackupNamespace.map_prefix
    rcases hs : stripPrefixList source.inner ns.inner with _ | s
    · rfl
    · exact absurd ((stripPrefixList_some_iff _ _ _).mp hs) (hno s)

/-- Witness for C8: `a/b/c` remapped from prefix `a` to `x/y` gives `x/y/b/c`. -/
theorem map_prefix_spec_witness :
    BackupNamespace.map_prefix { inner := [['a'], ['b'], ['c']], len := 5 }
        { inner := [['a']], len := 1 } { inner := [['x'], ['y']], len := 3 }
      = Except.ok { inner := [['x'], ['y'], ['b'], ['c']], len := 7 }
    ∧ ({ inner := [['x'], ['y'], ['b'], ['c']], len := 7 } : BackupNamespace).inner
      = [['x'], ['y']] ++ [['b'], ['c']] :=
  (map_prefix_spec { inner := [['a'], ['b'], ['c']], len := 5 }
      { inner := [['a']], len := 1 } { inner := [['x'], ['y']], len := 3 }).2.1
    [['b'], ['c']] { inner := [['x'], ['y'], ['b'], ['c']], len := 7 }
    (by decide) (by decide)

/-- C3: the hand-written `Ord` impl for `BackupGroup` computes exactly the
ordering described by the spec: backup type rank first (Ct before Host before
Vm), then numeric id comparison when both ids parse as `u64`, a numeric id
before a non-numeric one, and lexicographic ids otherwise. -/
theorem backup_group_cmp_matches_spec (a b : BackupGroup) :
    BackupGroup.cmp a b = specGroupCmp a b := by
  rcases a with ⟨ta, ia⟩
  rcases b with ⟨tb, ib⟩
  cases ta <;> cases tb <;> rfl

theorem natCompare_eq_iff (a b : Nat) : natCompare a b = Ordering.eq ↔ a = b := by
  unfold natCompare
  split_ifs <;> simp <;> omega

theorem natCompare_lt_iff (a b : Nat) : natCompare a b = Ordering.lt ↔ a < b := by
  unfold natCompare
  split_ifs <;> simp <;> omega

theorem natCompare_gt_iff (a b : Nat) : natCompare a b = Ordering.gt ↔ b < a := by
  unfold natCompare
  split_ifs <;> simp <;> omega

theorem natCompare_swap (a b : Nat) : natCompare b a = (natCompare a b).swap := by
  unfold natCompare
  split_ifs <;> first | rfl | omega

theorem natCompare_trans {a b c : Nat}
    (h1 : natCompare a b = Ordering.lt) (h2 : natCompare b c = Ordering.lt) :
    natCompare a c = Ordering.lt := by
  rw [natCompare_lt_iff] at h1 h2 ⊢
  omega

theorem char_toNat_inj {c d : Char} (h : c.toNat = d.toNat) : c = d :=
  Char.ofNat_toNat c ▸ Char.ofNat_toNat d ▸ congrArg Char.ofNat h

theorem lexCompare_eq_iff : ∀ (a b : List Char), lexCompare a b = Ordering.eq ↔ a = b := by
  intro a
  induction a with
  | nil => intro b; cases b <;> simp [lexCompare]
  | cons x xs ih =>
    intro b
    cases b with
    | nil => simp [lexCompare]
    | cons y ys =>
      simp only [lexCompare]
      rcases hxy : natCompare x.toNat y.toNat with _ | _ | _
      · constructor
        · intro he; cases he
        · intro he
          cases he
          rw [natCompare_lt_iff] at hxy
          omega
      · constructor
        · intro he
          obtain rfl := (ih ys).mp he
          obtain rfl := char_toNat_inj ((natCompare_eq_iff _ _).mp hxy)
          rfl
        · intro he
          cases he
          exact (ih xs).mpr rfl
      · constructor
        · intro he; cases he
        · intro he
          cases he
          rw [natCompare_gt_iff] at hxy
          omega

theorem lexCompare_swap : ∀ (a b : List Char), lexCompare b a = (lexCompare a b).swap := by
  intro a
  induction a with
  | nil => intro b; cases b <;> rfl
  | cons x xs ih =>
    intro b
    cases b with
    | nil => rfl
    | cons y ys =>
      simp only [lexCompare]
      rw [natCompare_swap]
      rcases natCompare x.toNat y.toNat with _ | _ | _
      · rfl
      · exact ih ys
      · rfl

theorem lexCompare_trans :
    ∀ (a b c : List Char), lexCompare a b = Ordering.lt → lexCompare b c = Ordering.lt →
      lexCompare a c = Ordering.lt := by
  intro a
  induction a with
  | nil =>
    intro b c h1 h2
    cases b with
    | nil => cases h1
    | cons y ys =>
      cases c with
      | nil => cases h2
      | cons z zs => rfl
  | cons x xs ih =>
    intro b c h1 h2
    cases b with
    | nil => cases h1
    | cons y ys =>
      cases c with
      | nil => cases h2
      | cons z zs =>
        simp only [lexCompare] at h1 h2 ⊢
        rcases hxy : natCompare x.toNat y.toNat with _ | _ | _ <;> rw [hxy] at h1
        · rcases hyz : natCompare y.toNat z.toNat with _ | _ | _ <;> rw [hyz] at h2
          · rw [natCompare_lt_iff] at hxy hyz
            rw [(natCompare_lt_iff _ _).mpr (Nat.lt_trans hxy hyz)]
          · rw [natCompare_lt_iff] at hxy
            rw [natCompare_eq_iff] at hyz
            rw [(natCompare_lt_iff _ _).mpr (hyz ▸ hxy)]
          · cases h2
        · rcases hyz : natCompare y.toNat z.toNat with _ | _ | _ <;> rw [hyz] at h2
          · rw [natCompare_eq_iff] at hxy
            rw [natCompare_lt_iff] at hyz
            rw [(natCompare_lt_iff _ _).mpr (hxy ▸ hyz)]
          · rw [natCompare_eq_iff] at hxy
            rw [natCompare_eq_iff] at hyz
            rw [(natCompare_eq_iff _ _).mpr (hxy.trans hyz)]
            exact ih ys zs h1 h2
          · cases h2
        · cases h1

theorem btCmp_eq_iff (a b : BackupType) :
    BackupType.cmp a b = Ordering.eq ↔ a = b := by
  cases a <;> cases b <;> decide

theorem btCmp_swap (a b : BackupType) :
    BackupType.cmp b a = ( BackupType.cmp a b).swap := by
  cases a <;> cases b <;> decide

theorem btCmp_trans {a b c : BackupType}
    (h1 : BackupType.cmp a b = Ordering.lt) (h2 : BackupType.cmp b c = Ordering.lt) :
    BackupType.cmp a c = Ordering.lt := by
  cases a <;> cases b <;> cases c <;> revert h1 h2 <;> decide

theorem idCmp_eq_iff (a b : List Char) : idCmp a b = Ordering.eq ↔ idEquiv a b := by
  unfold idCmp idEquiv
  rcases parseU64 a with _ | x <;> rcases parseU64 b with _ | y
  · simpa using lexCompare_eq_iff a b
  · simp
  · simp
  · simpa using natCompare_eq_iff x y

theorem idCmp_swap (a b : List Char) : idCmp b a = (idCmp a b).swap := by
  unfold idCmp
  rcases parseU64 a with _ | x <;> rcases parseU64 b with _ | y
  · exact lexCompare_swap a b
  · rfl
  · rfl
  · exact natCompare_swap x y

theorem idCmp_trans {a b c : List Char}
    (h1 : idCmp a b = Ordering.lt) (h2 : idCmp b c = Ordering.lt) :
    idCmp a c = Ordering.lt := by
  unfold idCmp at h1 h2 ⊢
  revert h1 h2
  rcases parseU64 a with _ | x <;> rcases parseU64 b with _ | y <;>
    rcases parseU64 c with _ | z <;> intro h1 h2
  · exact lexCompare_trans a b c h1 h2
  · cases h2
  · cases h1
  · cases h1
  · rfl
  · cases h2
  · rfl
  · exact natCompare_trans h1 h2

theorem idEquiv_refl (a : List Char) : idEquiv a a := by
  unfold idEquiv
  rcases parseU64 a with _ | x
  · rfl
  · rfl

theorem group_cmp_def (a b : BackupGroup) :
    BackupGroup.cmp a b
      = if BackupType.cmp a.ty b.ty = Ordering.eq then idCmp a.id b.id
        else BackupType.cmp a.ty b.ty := by
  by_cases h : BackupType.cmp a.ty b.ty = Ordering.eq
  · simp [BackupGroup.cmp, h]
  · simp [BackupGroup.cmp, h]

theorem ordering_swap_eq_iff (o : Ordering) :
    o.swap = Ordering.eq ↔ o = Ordering.eq := by
  cases o <;> decide

/-- C2 (amended): the `Ord` impl for `BackupGroup` is a total preorder
consistent with equality only up to numeric id equivalence: `cmp` returns
`Equal` exactly when the types agree and the ids are equivalent (equal `u64`
values when both parse, identical strings when neither parses); equal groups
compare `Equal`; `cmp` is antisymmetric (`cmp(b,a)` is the reverse of
`cmp(a,b)`) and transitive. -/
theorem backup_group_cmp_preorder (a b c : BackupGroup) :
    ( BackupGroup.cmp a b = Ordering.eq ↔ (a.ty = b.ty ∧ idEquiv a.id b.id))
    ∧ (a = b → BackupGroup.cmp a b = Ordering.eq)
    ∧ BackupGroup.cmp b a = ( BackupGroup.cmp a b).swap
    ∧ ( BackupGroup.cmp a b = Ordering.lt → BackupGroup.cmp b c = Ordering.lt →
        BackupGroup.cmp a c = Ordering.lt) := by
  have heq : ∀ x y : BackupGroup,
      BackupGroup.cmp x y = Ordering.eq ↔ (x.ty = y.ty ∧ idEquiv x.id y.id) := by
    intro x y
    rw [group_cmp_def]
    by_cases h : BackupType.cmp x.ty y.ty = Ordering.eq
    · rw [if_pos h, idCmp_eq_iff]
      rw [btCmp_eq_iff] at h
      simp [h]
    · rw [if_neg h]
      constructor
      · intro hc; exact absurd hc h
      · intro hc
        exact absurd ((btCmp_eq_iff _ _).mpr hc.1) h
  refine ⟨heq a b, ?_, ?_, ?_⟩
  · intro hab
    cases hab
    exact (heq a a).mpr ⟨rfl, idEquiv_refl _⟩
  · rw [group_cmp_def, group_cmp_def, btCmp_swap]
    by_cases h : BackupType.cmp a.ty b.ty = Ordering.eq
    · rw [h]
      rw [if_pos (show Ordering.eq.swap = Ordering.eq from rfl)]
      exact idCmp_swap a.id b.id
    · rw [if_neg (fun hc => h ((ordering_swap_eq_iff _).mp hc)), if_neg h]
  · intro h1 h2
    rw [group_cmp_def] at h1 h2 ⊢
    by_cases hab : BackupType.cmp a.ty b.ty = Ordering.eq <;>
      by_cases hbc : BackupType.cmp b.ty c.ty = Ordering.eq
    · rw [if_pos hab] at h1
      rw [if_pos hbc] at h2
      have hac : BackupType.cmp a.ty c.ty = Ordering.eq := by
        rw [btCmp_eq_iff] at hab hbc ⊢
        exact hab.trans hbc
      rw [if_pos hac]
      exact idCmp_trans h1 h2
    · rw [if_pos hab] at h1
      rw [if_neg hbc] at h2
      have hab' := (btCmp_eq_iff _ _).mp hab
      rw [← hab'] at h2
      rw [if_neg (by simp [h2])]
      exact h2
    · rw [if_neg hab] at h1
      have hbc' := (btCmp_eq_iff _ _).mp hbc
      rw [hbc'] at h1
      rw [if_neg (by simp [h1])]
      exact h1
    · rw [if_neg hab] at h1
      rw [if_neg hbc] at h2
      have hac := btCmp_trans h1 h2
      rw [if_neg (by simp [hac])]
      exact hac

/-- Counterexample to C2 as stated: the groups `vm/05` and `vm/5` compare
`Equal` (both ids parse as the number 5) but are different values, so
`cmp(a,b) == Equal` does not imply `a == b`. -/
theorem backup_group_cmp_eq_not_injective :
    BackupGroup.cmp { ty := BackupType.vm, id := ['0', '5'] }
        { ty := BackupType.vm, id := ['5'] } = Ordering.eq
    ∧ ({ ty := BackupType.vm, id := ['0', '5'] } : BackupGroup)
      ≠ { ty := BackupType.vm, id := ['5'] } := by
  decide

/-- Witness for C2: transitivity applied at `ct/5 < host/alpha < vm/5`. -/
theorem backup_group_cmp_preorder_witness :
    BackupGroup.cmp { ty := BackupType.ct, id := ['5'] }
      { ty := BackupType.vm, id := ['5'] } = Ordering.lt :=
  (backup_group_cmp_preorder { ty := BackupType.ct, id := ['5'] }
      { ty := BackupType.host, id := ['a', 'l', 'p', 'h', 'a'] }
      { ty := BackupType.vm, id := ['5'] }).2.2.2 (by decide) (by decide)

theorem sweep_foldl (t0 : Int) (referenced : Nat → Bool) :
    ∀ (chunks : List SweepChunk) (acc : GarbageCollectionStatus × List SweepChunk),
      (List.foldl (sweepStep t0 referenced) acc chunks).2
        = acc.2 ++ chunks.filter (fun c => !referenced c.digest && decide (c.atime < t0))
      ∧ (List.foldl (sweepStep t0 referenced) acc chunks).1.pending_chunks
        = acc.1.pending_chunks
          + (chunks.filter (fun c => !referenced c.digest && decide (t0 ≤ c.atime))).length
      ∧ (List.foldl (sweepStep t0 referenced) acc chunks).1.removed_chunks
        = acc.1.removed_chunks
          + (chunks.filter (fun c => !referenced c.digest && decide (c.atime < t0))).length := by
  intro chunks
  induction chunks with
  | nil => intro acc; simp
  | cons c cs ih =>
    intro acc
    simp only [List.foldl_cons, List.filter_cons]
    obtain ⟨ih1, ih2, ih3⟩ := ih (sweepStep t0 referenced acc c)
    by_cases hr : referenced c.digest
    · have h2 : (sweepStep t0 referenced acc c).2 = acc.2 := by
        simp [sweepStep, hr]
      have hpend : (sweepStep t0 referenced acc c).1.pending_chunks
          = acc.1.pending_chunks := by simp [sweepStep, hr]
      have hrem : (sweepStep t0 referenced acc c).1.removed_chunks
          = acc.1.removed_chunks := by simp [sweepStep, hr]
      refine ⟨?_, ?_, ?_⟩
      · rw [ih1, h2]
        simp [hr]
      · rw [ih2, hpend]
        simp [hr]
      · rw [ih3, hrem]
        simp [hr]
    · by_cases ht : t0 ≤ c.atime
      · have hnlt : ¬(c.atime < t0) := not_lt.mpr ht
        have h2 : (sweepStep t0 referenced acc c).2 = acc.2 := by
          simp [sweepStep, hr, ht]
        have hpend : (sweepStep t0 referenced acc c).1.pending_chunks
            = acc.1.pending_chunks + 1 := by simp [sweepStep, hr, ht]
        have hrem : (sweepStep t0 referenced acc c).1.removed_chunks
            = acc.1.removed_chunks := by simp [sweepStep, hr, ht]
        refine ⟨?_, ?_, ?_⟩
        · rw [ih1, h2]
          simp [hr, hnlt]
        · rw [ih2, hpend]
          simp [hr, ht]
          omega
        · rw [ih3, hrem]
          simp [hr, hnlt]
      · have hlt : c.atime < t0 := not_le.mp ht
        have h2 : (sweepStep t0 referenced acc c).2 = acc.2 ++ [c] := by
          simp [sweepStep, hr, ht]
        have hpend : (sweepStep t0 referenced acc c).1.pending_chunks
            = acc.1.pending_chunks := by simp [sweepStep, hr, ht]
        have hrem : (sweepStep t0 referenced acc c).1.removed_chunks
            = acc.1.removed_chunks + 1 := by simp [sweepStep, hr, ht]
        refine ⟨?_, ?_, ?_⟩
        · rw [ih1, h2]
          simp [hr, hlt]
        · rw [ih2, hpend]
          simp [hr, ht]
        · rw [ih3, hrem]
          simp [hr, hlt]
          omega

/-- C5: in one sweep, every chunk that is unreferenced but whose last-access
time is at or after the cutoff `t0` is counted under the pending counters and
is neither deleted nor counted under the removed counters: the deleted list is
exactly the unreferenced chunks older than `t0` (which the chunk is not in),
`pending_chunks` counts exactly the unreferenced chunks at-or-after `t0`
(so it is positive here), and `removed_chunks` counts exactly the deleted
list. -/
theorem gc_sweep_pending_safety (t0 : Int) (referenced : Nat → Bool)
    (chunks : List SweepChunk) (c : SweepChunk)
    (hmem : c ∈ chunks) (href : referenced c.digest = false) (ht : t0 ≤ c.atime) :
    ((sweep t0 referenced chunks).2
        = chunks.filter (fun x => !referenced x.digest && decide (x.atime < t0)))
    ∧ c ∉ (sweep t0 referenced chunks).2
    ∧ (sweep t0 referenced chunks).1.pending_chunks
        = (chunks.filter (fun x => !referenced x.digest && decide (t0 ≤ x.atime))).length
    ∧ 0 < (sweep t0 referenced chunks).1.pending_chunks
    ∧ (sweep t0 referenced chunks).1.removed_chunks
        = (sweep t0 referenced chunks).2.length := by
  obtain ⟨h1, h2, h3⟩ :=
    sweep_foldl t0 referenced chunks (GarbageCollectionStatus.empty, [])
  have hd : (sweep t0 referenced chunks).2
      = chunks.filter (fun x => !referenced x.digest && decide (x.atime < t0)) := by
    unfold sweep
    rw [h1]
    rfl
  have hp : (sweep t0 referenced chunks).1.pending_chunks
      = (chunks.filter (fun x => !referenced x.digest && decide (t0 ≤ x.atime))).length := by
    unfold sweep
    rw [h2]
    simp [GarbageCollectionStatus.empty]
  have hrm : (sweep t0 referenced chunks).1.removed_chunks
      = (chunks.filter (fun x => !referenced x.digest && decide (x.atime < t0))).length := by
    unfold sweep
    rw [h3]
    simp [GarbageCollectionStatus.empty]
  refine ⟨hd, ?_, hp, ?_, ?_⟩
  · rw [hd]
    intro hc
    have := (List.mem_filter.mp hc).2
    simp at this
    omega
  · rw [hp]
    have hc : c ∈ chunks.filter (fun x => !referenced x.digest && decide (t0 ≤ x.atime)) :=
      List.mem_filter.mpr ⟨hmem, by simp [href, ht]⟩
    exact List.length_pos.mpr (List.ne_nil_of_mem hc)
  · rw [hrm, hd]

/-- Witness for C5: a single unreferenced chunk touched after the cutoff is
kept and counted pending. -/
theorem gc_sweep_pending_safety_witness :
    ({ digest := 1, size := 10, atime := 150, bad := false } : SweepChunk)
      ∉ (sweep 100 (fun _ => false)
          [{ digest := 1, size := 10, atime := 150, bad := false }]).2
    ∧ 0 < (sweep 100 (fun _ => false)
          [{ digest := 1, size := 10, atime := 150, bad := false }]).1.pending_chunks :=
  have h := gc_sweep_pending_safety 100 (fun _ => false)
    [{ digest := 1, size := 10, atime := 150, bad := false }]
    { digest := 1, size := 10, atime := 150, bad := false }
    (by decide) rfl (by decide)
  ⟨h.2.1, h.2.2.2.1⟩

theorem stripNsPrefix_some_iff (p r : List Char) :
    stripNsPrefix p = some r ↔ p = 'n' :: 's' :: '/' :: r := by
  cases p with
  | nil => simp [stripNsPrefix]
  | cons c1 p1 =>
    cases p1 with
    | nil => simp [stripNsPrefix]
    | cons c2 p2 =>
      cases p2 with
      | nil => simp [stripNsPrefix]
      | cons c3 rest =>
        simp only [stripNsPrefix]
        split_ifs with h
        · obtain ⟨rfl, rfl, rfl⟩ := h
          simp
        · constructor
          · intro hc; cases hc
          · intro he
            simp at he
            exact absurd ⟨he.1, he.2.1, he.2.2.1⟩ h

theorem splitFirst_some {sep : Char} :
    ∀ {l a b : List Char}, splitFirst sep l = some (a, b) →
      l = a ++ sep :: b ∧ sep ∉ a := by
  intro l
  induction l with
  | nil => intro a b h; cases h
  | cons c cs ih =>
    intro a b h
    simp only [splitFirst] at h
    split_ifs at h with hc
    · cases h
      cases hc
      simp
    · rcases hs : splitFirst sep cs with _ | ⟨a1, b1⟩
      · rw [hs] at h; cases h
      · rw [hs] at h
        cases h
        obtain ⟨h1, h2⟩ := ih hs
        refine ⟨by rw [h1]; simp, ?_⟩
        intro hm
        rcases List.mem_cons.mp hm with he | hm1
        · exact hc he.symm
        · exact h2 hm1

theorem splitFirst_append {sep : Char} :
    ∀ (a b : List Char), sep ∉ a → splitFirst sep (a ++ sep :: b) = some (a, b) := by
  intro a
  induction a with
  | nil => intro b _; simp [splitFirst]
  | cons c cs ih =>
    intro b hna
    have hc : ¬(c = sep) := fun he => hna (he ▸ List.mem_cons_self c cs)
    simp only [List.cons_append, splitFirst, if_neg hc]
    rw [List.append_eq, ih b (fun hm => hna (List.mem_cons_of_mem c hm))]

theorem splitFirst_none {sep : Char} :
    ∀ (l : List Char), sep ∉ l → splitFirst sep l = none := by
  intro l
  induction l with
  | nil => intro _; rfl
  | cons c cs ih =>
    intro hn
    have hc : ¬(c = sep) := fun he => hn (he ▸ List.mem_cons_self c cs)
    simp only [splitFirst, if_neg hc]
    rw [ih (fun hm => hn (List.mem_cons_of_mem c hm))]

theorem pathOfComps_cons_cons (a b : List Char) (rs : List (List Char)) :
    pathOfComps (a :: b :: rs)
      = ('n' :: 's' :: '/' :: a) ++ '/' :: pathOfComps (b :: rs) := by
  simp [pathOfComps]

theorem contains_false_not_mem {l : List Char} {c : Char}
    (h : l.contains c = false) : c ∉ l := by
  intro hm
  have he : l.elem c = true := List.elem_iff.mpr hm
  have hce : l.contains c = true := he
  rw [hce] at h
  cases h

theorem fromPathLoop_of_pushAll :
    ∀ (comps : List (List Char)) (fuel : Nat) (ns0 ns : BackupNamespace),
      pushAll ns0 comps = Except.ok ns →
      (pathOfComps comps).length ≤ fuel →
      fromPathLoop fuel ns0 (pathOfComps comps) = Except.ok ns := by
  intro comps
  induction comps with
  | nil =>
    intro fuel ns0 ns h _
    cases h
    cases fuel <;> simp [fromPathLoop, pathOfComps, stripNsPrefix]
  | cons c cs ih =>
    intro fuel ns0 ns h hfuel
    simp only [pushAll] at h
    rcases hp : BackupNamespace.push ns0 c with e | ns1
    · rw [hp] at h; cases h
    · rw [hp] at h
      have hslash : '/' ∉ c := contains_false_not_mem (push_ok_spec hp).2.2.2.1
      cases cs with
      | nil =>
        simp only [pushAll] at h
        cases h
        have hpath : pathOfComps [c] = 'n' :: 's' :: '/' :: c := by simp [pathOfComps]
        rw [hpath] at hfuel ⊢
        cases fuel with
        | zero => simp at hfuel
        | succ f =>
          simp only [fromPathLoop]
          have hstrip : stripNsPrefix ('n' :: 's' :: '/' :: c) = some c :=
            (stripNsPrefix_some_iff _ _).mpr rfl
          simp only [hstrip, splitFirst_none c hslash]
          exact hp
      | cons d ds =>
        rw [pathOfComps_cons_cons, List.cons_append, List.cons_append,
          List.cons_append] at hfuel ⊢
        cases fuel with
        | zero => simp at hfuel
        | succ f =>
          simp only [fromPathLoop]
          have hstrip : stripNsPrefix
              ('n' :: 's' :: '/' :: (c ++ '/' :: pathOfComps (d :: ds)))
              = some (c ++ '/' :: pathOfComps (d :: ds)) :=
            (stripNsPrefix_some_iff _ _).mpr rfl
          simp only [hstrip, splitFirst_append c _ hslash, hp]
          apply ih f ns1 ns h
          simp only [List.length_cons, List.length_append] at hfuel
          omega

theorem fromPathLoop_ok_shape :
    ∀ (fuel : Nat) (path : List Char) (ns0 ns : BackupNamespace),
      fromPathLoop fuel ns0 path = Except.ok ns →
      ∃ comps, pushAll ns0 comps = Except.ok ns
        ∧ (path = pathOfComps comps
           ∨ (comps ≠ [] ∧ path = pathOfComps comps ++ ['/'])) := by
  intro fuel
  induction fuel with
  | zero =>
    intro path ns0 ns h
    simp only [fromPathLoop] at h
    split_ifs at h with he
    cases h
    refine ⟨[], rfl, Or.inl ?_⟩
    rw [List.isEmpty_iff.mp he]
    rfl
  | succ fuel ih =>
    intro path ns0 ns h
    simp only [fromPathLoop] at h
    rcases hs : stripNsPrefix path with _ | next
    · simp only [hs] at h
      split_ifs at h with he
      cases h
      refine ⟨[], rfl, Or.inl ?_⟩
      rw [List.isEmpty_iff.mp he]
      rfl
    · simp only [hs] at h
      have hpath : path = 'n' :: 's' :: '/' :: next := (stripNsPrefix_some_iff _ _).mp hs
      rcases hf : splitFirst '/' next with _ | ⟨comp, rest⟩
      · simp only [hf] at h
        refine ⟨[next], ?_, Or.inl ?_⟩
        · simp only [pushAll, h]
        · rw [hpath]
          simp [pathOfComps]
      · simp only [hf] at h
        obtain ⟨hnext, hcompslash⟩ := splitFirst_some hf
        rcases hpush : BackupNamespace.push ns0 comp with e | ns1
        · simp only [hpush] at h
          cases h
        · simp only [hpush] at h
          obtain ⟨comps', hall, hshape⟩ := ih rest ns1 ns h
          refine ⟨comp :: comps', ?_, ?_⟩
          · simp only [pushAll, hpush]
            exact hall
          · rcases hshape with hrest | ⟨hne, hrest⟩
            · cases comps' with
              | nil =>
                right
                refine ⟨by simp, ?_⟩
                rw [hpath, hnext, hrest]
                simp [pathOfComps]
              | cons d ds =>
                left
                rw [hpath, hnext, hrest, pathOfComps_cons_cons]
                simp
            · cases comps' with
              | nil => exact absurd rfl hne
              | cons d ds =>
                right
                refine ⟨by simp, ?_⟩
                rw [hpath, hnext, hrest, pathOfComps_cons_cons]
                simp

/-- C7 (amended): `from_path` inverts the path serialization — for every valid
namespace, parsing its `ns/`-prefixed path form returns it — and `from_path`
accepts exactly the path serializations optionally followed by one trailing
slash: any successful parse of `p` means `p` is the rendered path of the
result or that rendered path plus a final `/`; every other non-empty input is
an error. -/
theorem from_path_display_inverse :
    (∀ ns : BackupNamespace, ValidNS ns →
        BackupNamespace.from_path ( BackupNamespace.display_as_path ns) = Except.ok ns)
    ∧ (∀ (p : List Char) (ns : BackupNamespace),
        BackupNamespace.from_path p = Except.ok ns →
        p = BackupNamespace.display_as_path ns
        ∨ (ns.is_root = false ∧ p = BackupNamespace.display_as_path ns ++ ['/'])) := by
  constructor
  · intro ns hv
    unfold BackupNamespace.from_path BackupNamespace.display_as_path
    exact fromPathLoop_of_pushAll ns.inner _ _ _ hv (le_refl _)
  · intro p ns h
    unfold BackupNamespace.from_path at h
    obtain ⟨comps, hall, hshape⟩ := fromPathLoop_ok_shape _ _ _ _ h
    have hinner : ns.inner = comps := by simpa using pushAll_ok_inner comps _ _ hall
    unfold BackupNamespace.display_as_path
    rw [hinner]
    rcases hshape with h1 | ⟨hne, h1⟩
    · exact Or.inl h1
    · refine Or.inr ⟨?_, h1⟩
      rw [BackupNamespace.is_root, hinner]
      cases comps with
      | nil => exact absurd rfl hne
      | cons d ds => rfl

/-- Counterexample to C7 as stated: the non-empty input `ns/a/` is not a
sequence of `ns/`-prefixed components (the path form of the namespace `a` is
`ns/a`, without the trailing slash), yet `from_path` accepts it instead of
returning an error. -/
theorem from_path_accepts_trailing_slash :
    BackupNamespace.from_path (("ns/a/").toList)
      = Except.ok { inner := [['a']], len := 1 }
    ∧ (("ns/a/").toList)
      ≠ BackupNamespace.display_as_path { inner := [['a']], len := 1 }
    ∧ BackupNamespace.display_as_path { inner := [['a']], len := 1 }
      = ("ns/a").toList := by
  decide

/-- Witness for C7 at the concrete namespace `a/b`. -/
theorem from_path_display_inverse_witness :
    ValidNS { inner := [['a'], ['b']], len := 3 }
    ∧ BackupNamespace.from_path
        ( BackupNamespace.display_as_path { inner := [['a'], ['b']], len := 3 })
      = Except.ok { inner := [['a'], ['b']], len := 3 } :=
  ⟨by decide, from_path_display_inverse.1 _ (by decide)⟩

theorem digitChar_isDigit_mod (k : Nat) : (digitChar (k % 10)).isDigit = true := by
  have h : k % 10 < 10 := Nat.mod_lt _ (by norm_num)
  interval_cases hi : (k % 10) <;> decide

theorem d2v_digitChar_mod (k : Nat) : d2v (digitChar (k % 10)) = k % 10 := by
  have h : k % 10 < 10 := Nat.mod_lt _ (by norm_num)
  interval_cases hi : (k % 10) <;> simp_all <;> decide

theorem digitChar_mod_ne_slash (k : Nat) : digitChar (k % 10) ≠ '/' := by
  have h : k % 10 < 10 := Nat.mod_lt _ (by norm_num)
  interval_cases hi : (k % 10) <;> decide

theorem daysInYear_ge (y : Nat) : 365 ≤ daysInYear y := by
  unfold daysInYear
  split <;> omega

theorem sumYears_shift (y0 : Nat) : ∀ (n : Nat),
    sumYears y0 (n + 1) = daysInYear y0 + sumYears (y0 + 1) n := by
  intro n
  induction n with
  | zero => simp [sumYears]
  | succ n ih =>
    have harg : y0 + (n + 1) = (y0 + 1) + n := by omega
    calc sumYears y0 (n + 2) = sumYears y0 (n + 1) + daysInYear (y0 + (n + 1)) := rfl
      _ = daysInYear y0 + sumYears (y0 + 1) n + daysInYear ((y0 + 1) + n) := by
          rw [ih, harg]
      _ = daysInYear y0 + sumYears (y0 + 1) (n + 1) := by
          simp [sumYears]
          omega

theorem yearFromDays_inv :
    ∀ (fuel y0 days : Nat), days < fuel →
      y0 ≤ (yearFromDays fuel y0 days).1
      ∧ (yearFromDays fuel y0 days).2 < daysInYear (yearFromDays fuel y0 days).1
      ∧ sumYears y0 ((yearFromDays fuel y0 days).1 - y0) + (yearFromDays fuel y0 days).2
          = days := by
  intro fuel
  induction fuel with
  | zero => intro y0 days h; omega
  | succ fuel ih =>
    intro y0 days h
    simp only [yearFromDays]
    by_cases hd : days < daysInYear y0
    · rw [if_pos hd]
      exact ⟨le_refl _, hd, by simp [sumYears]⟩
    · rw [if_neg hd]
      have hge : daysInYear y0 ≤ days := le_of_not_lt hd
      have h365 := daysInYear_ge y0
      have hfuel : days - daysInYear y0 < fuel := by omega
      obtain ⟨ih1, ih2, ih3⟩ := ih (y0 + 1) (days - daysInYear y0) hfuel
      refine ⟨by omega, ih2, ?_⟩
      have hyy : (yearFromDays fuel (y0 + 1) (days - daysInYear y0)).1 - y0
          = ((yearFromDays fuel (y0 + 1) (days - daysInYear y0)).1 - (y0 + 1)) + 1 := by
        omega
      rw [hyy, sumYears_shift]
      omega

theorem splitMonths_inv :
    ∀ (ls : List Nat) (d : Nat), d < ls.sum →
      (splitMonths ls d).1 < ls.length
      ∧ (ls.take (splitMonths ls d).1).sum + (splitMonths ls d).2 = d
      ∧ (splitMonths ls d).2 < ls.getD (splitMonths ls d).1 0 := by
  intro ls
  induction ls with
  | nil => intro d h; simp at h
  | cons ml rest ih =>
    intro d h
    simp only [splitMonths]
    by_cases hd : d < ml
    · rw [if_pos hd]
      exact ⟨by simp, by simp, by simpa using hd⟩
    · rw [if_neg hd]
      have hrest : d - ml < rest.sum := by
        simp only [List.sum_cons] at h
        omega
      obtain ⟨ih1, ih2, ih3⟩ := ih (d - ml) hrest
      rcases hsm : splitMonths rest (d - ml) with ⟨m, dd⟩
      rw [hsm] at ih1 ih2 ih3
      simp only at ih1 ih2 ih3
      dsimp only
      simp only [List.length_cons, List.take_succ_cons, List.sum_cons, List.getD_cons_succ]
      refine ⟨by omega, by omega, ih3⟩

theorem monthLengths_sum (b : Bool) : (monthLengths b).sum = if b then 366 else 365 := by
  cases b <;> rfl

theorem monthLengths_length (b : Bool) : (monthLengths b).length = 12 := by
  cases b <;> rfl

theorem daysInYear_eq_sum (y : Nat) :
    daysInYear y = (monthLengths (isLeap y)).sum := by
  rw [monthLengths_sum]
  unfold daysInYear
  cases isLeap y <;> simp

theorem rfc3339_roundtrip (t : Int) (s : List Char)
    (h : epochToRfc3339Utc t = some s) : parseRfc3339 s = some t := by
  unfold epochToRfc3339Utc at h
  by_cases hneg : t < 0
  · rw [if_pos hneg] at h
    cases h
  · rw [if_neg hneg] at h
    rcases hyd : yearFromDays (t.toNat / 86400 + 1) 1970 (t.toNat / 86400) with ⟨y, doy⟩
    rw [hyd] at h
    dsimp only at h
    split_ifs at h with hy9999
    rcases hmd : splitMonths (monthLengths (isLeap y)) doy with ⟨m, dd⟩
    rw [hmd] at h
    dsimp only at h
    injection h with hs
    subst hs
    · have hinv := yearFromDays_inv (t.toNat / 86400 + 1) 1970 (t.toNat / 86400) (by omega)
      rw [hyd] at hinv
      dsimp only at hinv
      obtain ⟨hy0, hdoy, hsum⟩ := hinv
      have hdoy' : doy < (monthLengths (isLeap y)).sum := by
        rw [← daysInYear_eq_sum]
        exact hdoy
      have hminv := splitMonths_inv (monthLengths (isLeap y)) doy hdoy'
      rw [hmd] at hminv
      dsimp only at hminv
      obtain ⟨hm12, hmsum, hdd⟩ := hminv
      rw [monthLengths_length] at hm12
      have hddb : dd < 31 := by
        have hb : (monthLengths (isLeap y)).getD m 0 ≤ 31 := by
          cases hL : isLeap y <;> interval_cases m <;> decide
        omega
      simp only [pad4, pad2, List.cons_append, List.nil_append]
      simp only [parseRfc3339]
      rw [if_pos (by simp [digitChar_isDigit_mod])]
      simp only [d2v_digitChar_mod]
      have hyv : 1000 * (y / 1000 % 10) + 100 * (y / 100 % 10) + 10 * (y / 10 % 10) + y % 10
          = y := by omega
      have hmo : 10 * ((m + 1) / 10 % 10) + (m + 1) % 10 = m + 1 := by omega
      have hda : 10 * ((dd + 1) / 10 % 10) + (dd + 1) % 10 = dd + 1 := by omega
      have hhv : 10 * (t.toNat % 86400 / 3600 / 10 % 10) + t.toNat % 86400 / 3600 % 10
          = t.toNat % 86400 / 3600 := by omega
      have hmiv : 10 * (t.toNat % 86400 % 3600 / 60 / 10 % 10) + t.toNat % 86400 % 3600 / 60 % 10
          = t.toNat % 86400 % 3600 / 60 := by omega
      have hsv : 10 * (t.toNat % 86400 % 60 / 10 % 10) + t.toNat % 86400 % 60 % 10
          = t.toNat % 86400 % 60 := by omega
      rw [hyv, hmo, hda, hhv, hmiv, hsv]
      rw [if_pos ⟨by omega, by omega, by omega, by omega, by omega, by omega⟩]
      have hmm1 : m + 1 - 1 = m := by omega
      rw [hmm1]
      have hlen : m < (monthLengths (isLeap y)).length := by
        rw [monthLengths_length]
        omega
      have hml := List.getElem?_eq_getElem hlen
      rw [hml]
      dsimp only
      have hdd' : dd < (monthLengths (isLeap y))[m] := by
        rw [List.getD_eq_getElem?_getD, hml] at hdd
        simpa using hdd
      rw [if_pos (by omega)]
      have hnat : (sumYears 1970 (y - 1970) + (List.take m (monthLengths (isLeap y))).sum
            + (dd + 1 - 1)) * 86400
          + (t.toNat % 86400 / 3600 * 3600 + t.toNat % 86400 % 3600 / 60 * 60
            + t.toNat % 86400 % 60) = t.toNat := by
        omega
      have hfinal : (((sumYears 1970 (y - 1970) + (List.take m (monthLengths (isLeap y))).sum
            + (dd + 1 - 1)) * 86400
          + (t.toNat % 86400 / 3600 * 3600 + t.toNat % 86400 % 3600 / 60 * 60
            + t.toNat % 86400 % 60) : Nat) : Int) = t := by
        rw [hnat]
        exact Int.toNat_of_nonneg (by omega)
      rw [hfinal]

theorem rendered_shape (t : Int) (ts : List Char)
    (h : epochToRfc3339Utc t = some ts) :
    ∃ y mo da hh mi ss, ts
      = pad4 y ++ '-' :: pad2 mo ++ '-' :: pad2 da ++ 'T' :: pad2 hh
        ++ ':' :: pad2 mi ++ ':' :: pad2 ss ++ ['Z'] := by
  unfold epochToRfc3339Utc at h
  by_cases hneg : t < 0
  · rw [if_pos hneg] at h
    cases h
  · rw [if_neg hneg] at h
    rcases hyd : yearFromDays (t.toNat / 86400 + 1) 1970 (t.toNat / 86400) with ⟨y, doy⟩
    rw [hyd] at h
    dsimp only at h
    split_ifs at h
    rcases hmd : splitMonths (monthLengths (isLeap y)) doy with ⟨m, dd⟩
    rw [hmd] at h
    dsimp only at h
    injection h with hs
    exact ⟨y, m + 1, dd + 1, t.toNat % 86400 / 3600, t.toNat % 86400 % 3600 / 60,
      t.toNat % 86400 % 60, hs.symm⟩

theorem slash_notin_pad4 (n : Nat) : '/' ∉ pad4 n := by
  intro hm
  simp [pad4] at hm
  rcases hm with h | h | h | h <;> exact digitChar_mod_ne_slash _ h.symm

theorem slash_notin_pad2 (n : Nat) : '/' ∉ pad2 n := by
  intro hm
  simp [pad2] at hm
  rcases hm with h | h <;> exact digitChar_mod_ne_slash _ h.symm

theorem slash_notin_shape (y mo da hh mi ss : Nat) :
    '/' ∉ pad4 y ++ '-' :: pad2 mo ++ '-' :: pad2 da ++ 'T' :: pad2 hh
      ++ ':' :: pad2 mi ++ ':' :: pad2 ss ++ ['Z'] := by
  simp only [pad4, pad2, List.cons_append, List.nil_append, List.append_assoc]
  intro hm
  simp only [List.mem_cons, List.not_mem_nil, or_false] at hm
  rcases hm with h|h|h|h|h|h|h|h|h|h|h|h|h|h|h|h|h|h|h|h <;>
    first
      | exact digitChar_mod_ne_slash _ h.symm
      | exact absurd h (by decide)

theorem timeReMatch_shape (y mo da hh mi ss : Nat) :
    timeReMatch (pad4 y ++ '-' :: pad2 mo ++ '-' :: pad2 da ++ 'T' :: pad2 hh
      ++ ':' :: pad2 mi ++ ':' :: pad2 ss ++ ['Z']) = true := by
  simp only [pad4, pad2, List.cons_append, List.nil_append]
  simp [timeReMatch, digitChar_isDigit_mod]

theorem splitChar_noslash : ∀ (a : List Char), '/' ∉ a → splitChar '/' a = [a] := by
  intro a
  induction a with
  | nil => intro _; rfl
  | cons c cs ih =>
    intro h
    have hc : ¬(c = '/') := fun he => h (he ▸ List.mem_cons_self c cs)
    simp only [splitChar, if_neg hc]
    rw [ih (fun hm => h (List.mem_cons_of_mem c hm))]

theorem splitChar_append_noslash :
    ∀ (a r : List Char), '/' ∉ a →
      splitChar '/' (a ++ '/' :: r) = a :: splitChar '/' r := by
  intro a
  induction a with
  | nil => intro r _; simp [splitChar]
  | cons c cs ih =>
    intro r h
    have hc : ¬(c = '/') := fun he => h (he ▸ List.mem_cons_self c cs)
    simp only [List.cons_append, splitChar, if_neg hc]
    rw [List.append_eq, ih r (fun hm => h (List.mem_cons_of_mem c hm))]

theorem bt_from_str_as_str (ty : BackupType) :
    BackupType.from_str ( BackupType.as_str ty) = Except.ok ty := by
  cases ty <;> rfl

theorem slash_notin_as_str (ty : BackupType) : '/' ∉ BackupType.as_str ty := by
  cases ty <;> decide

theorem as_str_guard (ty : BackupType) :
    ( BackupType.as_str ty == ('v' :: 'm' :: [])
      || BackupType.as_str ty == ('c' :: 't' :: [])
      || BackupType.as_str ty == ('h' :: 'o' :: 's' :: 't' :: [])) = true := by
  cases ty <;> decide

theorem safeId_no_slash {c : List Char} (h : safeIdMatch c = true) : '/' ∉ c := by
  intro hm
  cases c with
  | nil => cases hm
  | cons a as_ =>
    simp only [safeIdMatch, Bool.and_eq_true, List.all_eq_true] at h
    rcases List.mem_cons.mp hm with he | hmem
    · rw [← he] at h
      exact absurd h.1 (by decide)
    · exact absurd (h.2 _ hmem) (by decide)

/-- C6 (amended): for every `BackupDir` whose id matches the backup-id (safe-id)
grammar and whose time renders as an RFC3339 UTC second-precision timestamp,
`from_str` of the `Display` string `type/id/<timestamp>` returns the same
`BackupDir`, group and epoch seconds included. -/
theorem backup_dir_string_roundtrip (d : BackupDir) (s : List Char)
    (hdisp : BackupDir.display d = some s)
    (hid : safeIdMatch d.group.id = true) :
    BackupDir.from_str s = Except.ok d := by
  unfold BackupDir.display at hdisp
  rcases het : epochToRfc3339Utc d.time with _ | ts
  · rw [het] at hdisp
    cases hdisp
  · rw [het] at hdisp
    dsimp only at hdisp
    injection hdisp with hs
    subst hs
    obtain ⟨y, mo, da, hh, mi, ss, hshape⟩ := rendered_shape d.time ts het
    have hnots : '/' ∉ ts := by
      rw [hshape]
      exact slash_notin_shape y mo da hh mi ss
    have htime : timeReMatch ts = true := by
      rw [hshape]
      exact timeReMatch_shape y mo da hh mi ss
    unfold BackupGroup.display
    have hassoc : ( BackupType.as_str d.group.ty ++ '/' :: d.group.id) ++ '/' :: ts
        = BackupType.as_str d.group.ty ++ '/' :: (d.group.id ++ '/' :: ts) := by
      simp
    rw [hassoc]
    have hsplit : splitChar '/'
        ( BackupType.as_str d.group.ty ++ '/' :: (d.group.id ++ '/' :: ts))
        = [ BackupType.as_str d.group.ty, d.group.id, ts] := by
      rw [splitChar_append_noslash _ _ (slash_notin_as_str d.group.ty),
        splitChar_append_noslash _ _ (safeId_no_slash hid),
        splitChar_noslash ts hnots]
    unfold BackupDir.from_str
    rw [hsplit]
    dsimp only
    rw [if_pos (by rw [as_str_guard d.group.ty, hid, htime]; rfl)]
    rw [bt_from_str_as_str d.group.ty]
    dsimp only
    rw [rfc3339_roundtrip d.time ts het]

/-- Counterexample to C6 as stated: the `BackupDir` `(host, "a/b", 0)` renders
(its time renders as `1970-01-01T00:00:00Z`), but parsing the rendered string
back fails, because the slash inside the id makes the string split into four
components instead of three. -/
theorem backup_dir_roundtrip_fails_on_slash_id :
    BackupDir.display
        { group := { ty := BackupType.host, id := ("a/b").toList }, time := 0 }
      = some (("host/a/b/1970-01-01T00:00:00Z").toList)
    ∧ BackupDir.from_str (("host/a/b/1970-01-01T00:00:00Z").toList)
      = Except.error ("unable to parse backup snapshot path") := by
  decide

/-- Witness for C6 at `(host, "elsa", 0)`. -/
theorem backup_dir_string_roundtrip_witness :
    BackupDir.display
        { group := { ty := BackupType.host, id := ("elsa").toList }, time := 0 }
      = some (("host/elsa/1970-01-01T00:00:00Z").toList)
    ∧ BackupDir.from_str (("host/elsa/1970-01-01T00:00:00Z").toList)
      = Except.ok { group := { ty := BackupType.host, id := ("elsa").toList }, time := 0 } :=
  ⟨by decide, backup_dir_string_roundtrip _ _ (by decide) (by decide)⟩
